import Mathlib

/-!
Verification of the memgraph transactional storage core against its
natural-language specification.  The Lean definitions below are a shallow
embedding of the C++ sources:

  * `src/src/query/interpreter.hpp` (second part: `tx::SingleNodeEngine`
    from `transactions/engine_single_node.cpp` plus its header),
  * `src/src/storage/v2/name_id_mapper.hpp` (`storage::NameIdMapper`),
  * `src/src/database/graph_db_accessor.cpp` (`GraphDbAccessor`),
  * `src/src/durability/recovery.cpp` (`durability::Recover` and helpers).

Machine integers are modelled as `Nat` with explicit bounds where overflow
matters; fatal `CHECK`/`DCHECK` paths and thrown exceptions are modelled as
explicit result constructors; container classes that are not part of the
shown sources (the sorted `tx::Snapshot` vector, the skip lists) are
modelled by sorted or association lists following the specification text.
-/

/-! ## Transaction engine (`tx::SingleNodeEngine`)

The `tx::Snapshot` class is not among the shown sources.  Modelled from the
spec: "ActiveSet | ordered set of active TxIds | Front = oldest active tx"
and "Snapshot | set of TxIds considered concurrent to a transaction".  We
represent it as a sorted (ascending) duplicate-free `List Nat`; `insert`
places an element at its ordered position and `front` is the list head. -/

/-- Ordered insertion into an ascending list, the `tx::Snapshot::insert`
operation of the sorted-vector snapshot class (modelled from the spec:
the snapshot is an ordered set of transaction ids). -/
def snapInsert (x : Nat) : List Nat → List Nat
  | [] => [x]
  | y :: ys => if x ≤ y then x :: y :: ys else y :: snapInsert x ys

/-- Removal from a snapshot list (`tx::Snapshot::remove`). -/
def snapRemove (x : Nat) (l : List Nat) : List Nat :=
  l.filter (fun y => y ≠ x)

/-- One transaction object (`tx::Transaction`): its id, the snapshot
captured at begin, and the per-transaction command id `cid_`. -/
structure Txn where
  id : Nat
  snapshot : List Nat
  cid : Nat
deriving Repr, DecidableEq

/-- State deltas relevant to the engine WAL writes
(`database::StateDelta::TxBegin/TxCommit/TxAbort`). -/
inductive EngDelta
  | txBegin (id : Nat)
  | txCommit (id : Nat)
  | txAbort (id : Nat)
deriving Repr, DecidableEq

/-- State of `tx::SingleNodeEngine`: transaction counter, commit log
(committed and aborted id sets), the active set (sorted), the transaction
store keyed by id, and the WAL contents written by the engine. -/
structure EngineState where
  counter : Nat
  active : List Nat
  store : List (Nat × Txn)
  committed : List Nat
  aborted : List Nat
  wal : List EngDelta
deriving Repr, DecidableEq

/-- The freshly constructed engine: `counter_{0}`, everything empty. -/
def engInit : EngineState :=
  { counter := 0, active := [], store := [], committed := [], aborted := [],
    wal := [] }

/-- `SingleNodeEngine::Begin`: under the engine lock, `id = ++counter_`,
construct `Transaction(id, active_, *this)` (whose `cid_` starts at 1 and
whose snapshot is the active set before the insertion), insert `id` into
the active set, store the transaction, and emplace a `TxBegin(id)` delta
into the WAL. -/
def engBegin (s : EngineState) : Txn × EngineState :=
  let id := s.counter + 1
  let t : Txn := { id := id, snapshot := s.active, cid := 1 }
  (t, { s with
          counter := id,
          active := snapInsert id s.active,
          store := (id, t) :: s.store,
          wal := s.wal ++ [EngDelta.txBegin id] })

/-- Maximum value of `command_id_t`
(`std::numeric_limits<command_id_t>::max()`; the spec fixes `CmdId` to be a
64-bit counter). -/
def cmdIdMax : Nat := 2 ^ 64 - 1

/-- Result of `SingleNodeEngine::Advance`: the new command id on success,
a thrown `TransactionError` on command-id overflow, or the fatal `DCHECK`
on a non-existing transaction. -/
inductive AdvanceResult
  | ok (cid : Nat) (s : EngineState)
  | transactionError (s : EngineState)
  | noSuchTransaction
deriving Repr, DecidableEq

/-- `SingleNodeEngine::Advance`: look the transaction up in the store
(`DCHECK` that it exists); if its `cid_` equals the maximal representable
command id, throw `TransactionError` leaving all state untouched; otherwise
return `++cid_`, i.e. bump the stored command id and return the new
value. -/
def engAdvance (id : Nat) (s : EngineState) : AdvanceResult :=
  match s.store.lookup id with
  | none => AdvanceResult.noSuchTransaction
  | some t =>
    if t.cid = cmdIdMax then
      AdvanceResult.transactionError s
    else
      AdvanceResult.ok (t.cid + 1)
        { s with
            store := s.store.map
              (fun p => if p.1 = id then (p.1, { p.2 with cid := p.2.cid + 1 })
                        else p) }

/-- `SingleNodeEngine::Commit`: under the lock, mark the commit log,
remove the id from the active set, emplace a `TxCommit` delta, and erase
the transaction from the store. -/
def engCommit (id : Nat) (s : EngineState) : EngineState :=
  { s with
      committed := id :: s.committed,
      active := snapRemove id s.active,
      wal := s.wal ++ [EngDelta.txCommit id],
      store := s.store.filter (fun p => p.1 ≠ id) }

/-- `SingleNodeEngine::Abort`: like `Commit` but marking the abort bit and
emplacing a `TxAbort` delta. -/
def engAbort (id : Nat) (s : EngineState) : EngineState :=
  { s with
      aborted := id :: s.aborted,
      active := snapRemove id s.active,
      wal := s.wal ++ [EngDelta.txAbort id],
      store := s.store.filter (fun p => p.1 ≠ id) }

/-- `SingleNodeEngine::GlobalGcSnapshot`: if no transaction is active,
return a copy of the (empty) active set with `counter_ + 1` inserted;
otherwise return the snapshot of the transaction stored for
`active_.front()` with `active_.front()` inserted.  The store lookup of the
front transaction is total in the source (`store_.find(...)->second`); the
`Txn` default is never used in reachable states. -/
def engGcSnapshot (s : EngineState) : List Nat :=
  match s.active with
  | [] => snapInsert (s.counter + 1) []
  | front :: _ =>
    let t := (s.store.lookup front).getD { id := 0, snapshot := [], cid := 1 }
    snapInsert front t.snapshot

/-- Engine operations, used to describe arbitrary interleavings of calls. -/
inductive EngOp
  | opBegin
  | opAdvance (id : Nat)
  | opCommit (id : Nat)
  | opAbort (id : Nat)
deriving Repr, DecidableEq

/-- Apply one engine operation to the state.  `Commit`/`Abort` take the
transaction object from the store, so they act only when the id is stored
(the source dereferences the store entry); an absent id leaves the state
unchanged here, matching the fact that the source can only be called with
live transaction objects. -/
def engStep (s : EngineState) : EngOp → EngineState
  | EngOp.opBegin => (engBegin s).2
  | EngOp.opAdvance id =>
    match engAdvance id s with
    | AdvanceResult.ok _ s2 => s2
    | AdvanceResult.transactionError s2 => s2
    | AdvanceResult.noSuchTransaction => s
  | EngOp.opCommit id =>
    if (s.store.lookup id).isSome then engCommit id s else s
  | EngOp.opAbort id =>
    if (s.store.lookup id).isSome then engAbort id s else s

/-- Run a list of engine operations from the initial state. -/
def engRun (ops : List EngOp) : EngineState :=
  ops.foldl engStep engInit

/-- One step of a run that also records the id returned by each `Begin`
call. -/
def issuedStep (p : EngineState × List Nat) (op : EngOp) :
    EngineState × List Nat :=
  match op with
  | EngOp.opBegin => ((engStep p.1 op), p.2 ++ [(engBegin p.1).1.id])
  | _ => ((engStep p.1 op), p.2)

/-- The transaction ids handed out by `Begin`, in order, along a run. -/
def issuedIds (ops : List EngOp) : List Nat :=
  (ops.foldl issuedStep (engInit, [])).2

/-! ## Name/id registry (`storage::NameIdMapper`)

The two skip lists are modelled as association lists (keys unique in
reachable states); `counter_.fetch_add(1)` returns the old counter value.
The embedding is the sequential execution of `NameToId`/`IdToName`. -/

/-- State of `storage::NameIdMapper`: the atomic counter and the two
mappings. -/
structure MapperState where
  counter : Nat
  nameToIdMap : List (String × Nat)
  idToNameMap : List (Nat × String)
deriving Repr, DecidableEq

/-- A freshly constructed mapper: `counter_{0}`, both skip lists empty. -/
def mapperInit : MapperState :=
  { counter := 0, nameToIdMap := [], idToNameMap := [] }

/-- Skip-list insert on the name-to-id map: if the name is already present
the existing item is returned and nothing is inserted, otherwise the new
pair is inserted.  Returns the id of the item that ends up in the map
(`insert({name, new_id}).first->id` in the source). -/
def mapInsertName (name : String) (newId : Nat) (l : List (String × Nat)) :
    Nat × List (String × Nat) :=
  match l.lookup name with
  | some existing => (existing, l)
  | none => (newId, (name, newId) :: l)

/-- Skip-list insert on the id-to-name map: inserts only when the id is not
yet present. -/
def mapInsertId (id : Nat) (name : String) (l : List (Nat × String)) :
    List (Nat × String) :=
  match l.lookup id with
  | some _ => l
  | none => (id, name) :: l

/-- `NameIdMapper::NameToId`: look the name up; if absent, draw
`new_id = counter_.fetch_add(1)` and insert the pair, taking the id of the
item that is actually in the map; finally (in either case) insert the
id-to-name mapping so that both directions exist after the call. -/
def nameToId (name : String) (m : MapperState) : Nat × MapperState :=
  match m.nameToIdMap.lookup name with
  | some id =>
    (id, { m with idToNameMap := mapInsertId id name m.idToNameMap })
  | none =>
    let newId := m.counter
    let inserted := mapInsertName name newId m.nameToIdMap
    let id := inserted.1
    (id, { m with
             counter := m.counter + 1,
             nameToIdMap := inserted.2,
             idToNameMap := mapInsertId id name m.idToNameMap })

/-- `NameIdMapper::IdToName`: look the id up; the source `CHECK`s that the
id is present (fatal otherwise), modelled by `Option`. -/
def idToName (id : Nat) (m : MapperState) : Option String :=
  m.idToNameMap.lookup id

/-- Run a sequence of `NameToId` calls from a given mapper state. -/
def mapperRunFrom (m : MapperState) (names : List String) : MapperState :=
  names.foldl (fun st n => (nameToId n st).2) m

/-- Mapper state produced by a sequence of `NameToId` calls from the
initial state. -/
def mapperRun (names : List String) : MapperState :=
  mapperRunFrom mapperInit names

/-! ## Label-property index range count
(`GraphDbAccessor::VerticesCount` with bounds)

The ordered index container and `LabelPropertyIndex::PositionAndCount` are
not among the shown sources.  Modelled from the spec:
"`PositionAndCount(value)` returning `(lower_bound_position,
equal_run_length)`" over the "(label, property) → ordered container of
(value, Gid)" index.  The indexed values are drawn from an arbitrary
linearly ordered type (standing for the non-Null `PropertyValue`s; Null
values are never indexed); on a container sorted by value, the
lower-bound position is the number of entries ordered before the value
and the run length is the number of entries equal to it. -/

/-- Lower-bound position and equal-run length of a value in the index
container, i.e. `LabelPropertyIndex::PositionAndCount` (modelled from the
spec). -/
def positionAndCount {α : Type} [LinearOrder α] (entries : List α) (v : α) :
    Nat × Nat :=
  (entries.countP (fun x => decide (x < v)),
   entries.countP (fun x => decide (x = v)))

/-- The type of one range bound, `utils::Bound`: a value and whether the
bound is inclusive or exclusive.  The bound value is an `Option`, with
`none` standing for a `PropertyValue` of type Null. -/
structure IdxBound (α : Type) where
  value : Option α
  inclusive : Bool
deriving Repr, DecidableEq

/-- `GraphDbAccessor::VerticesCount(label, property, lower, upper)`:
the fatal `CHECK`s (at least one bound; no Null bound value) are modelled
as `none`; otherwise the three branches of the source compute the count
from `PositionAndCount` and the total index size, clamped at zero with
`std::max(0l, ...)` where the source clamps. -/
def verticesCountRange {α : Type} [LinearOrder α] (entries : List α)
    (lower upper : Option (IdxBound α)) : Option Int :=
  match lower, upper with
  | none, none => none
  | some l, none =>
    match l.value with
    | none => none
    | some lv =>
      let lowerPac := positionAndCount entries lv
      let size : Int := entries.length
      some (max 0 (size - lowerPac.1 -
        (if l.inclusive then 0 else (lowerPac.2 : Int))))
  | none, some u =>
    match u.value with
    | none => none
    | some uv =>
      let upperPac := positionAndCount entries uv
      some (if u.inclusive then (upperPac.1 : Int) + upperPac.2
            else (upperPac.1 : Int))
  | some l, some u =>
    match l.value, u.value with
    | none, _ => none
    | _, none => none
    | some lv, some uv =>
      let lowerPac := positionAndCount entries lv
      let upperPac := positionAndCount entries uv
      let result : Int := (upperPac.1 : Int) - lowerPac.1
      let result := if l.inclusive then result else result - lowerPac.2
      let result := if u.inclusive then result + upperPac.2 else result
      some (max 0 result)

/-- Whether a value satisfies a lower bound. -/
def satLower {α : Type} [LinearOrder α] (lv : α) (inclusive : Bool) (x : α) :
    Bool :=
  if inclusive then decide (lv ≤ x) else decide (lv < x)

/-- Whether a value satisfies an upper bound. -/
def satUpper {α : Type} [LinearOrder α] (uv : α) (inclusive : Bool) (x : α) :
    Bool :=
  if inclusive then decide (x ≤ uv) else decide (x < uv)

/-- The number of index entries inside a range, the quantity the claim
says `VerticesCount` returns: entries satisfying the present bounds. -/
def rangeCount {α : Type} [LinearOrder α] (entries : List α)
    (lower upper : Option (α × Bool)) : Nat :=
  entries.countP (fun x =>
    (match lower with
     | none => true
     | some l => satLower l.1 l.2 x) &&
    (match upper with
     | none => true
     | some u => satUpper u.1 u.2 x))

/-! ## Vertex removal (`GraphDbAccessor::RemoveVertex`)

The MVCC version chain is abstracted to exactly the facts the source
consults after `SwitchNew()`: whether the vertex is local, whether its
newest version is already expired by the calling transaction
(`current().is_expired_by(*transaction_)`), and the in/out degrees of the
newest version.  The mutable database context is the WAL and the set of
version lists on which `remove` has been called. -/

/-- The WAL deltas emitted by the accessor operations used here. -/
inductive DbDelta
  | removeVertexDelta (txId : Nat) (gid : Nat)
deriving Repr, DecidableEq

/-- View of one vertex accessor after `SwitchNew()`. -/
structure VertexView where
  isLocal : Bool
  expiredByMe : Bool
  outDegree : Nat
  inDegree : Nat
  gid : Nat
deriving Repr, DecidableEq

/-- Mutable context touched by `RemoveVertex`: the WAL and the list of
gids whose version list got an expiration installed by this call
(`vlist_ptr->remove(...)`). -/
structure DbContext where
  wal : List DbDelta
  expiredGids : List Nat
deriving Repr, DecidableEq

/-- `GraphDbAccessor::RemoveVertex`: a remote vertex logs an error and
returns false; then `SwitchNew()`; a version already expired by this
transaction returns true with no further mutation; a vertex with positive
out- or in-degree returns false with no mutation; otherwise a
`RemoveVertex` WAL delta is emplaced and the version list `remove` is
called. -/
def removeVertex (v : VertexView) (txId : Nat) (db : DbContext) :
    Bool × DbContext :=
  if !v.isLocal then (false, db)
  else if v.expiredByMe then (true, db)
  else if v.outDegree > 0 || v.inDegree > 0 then (false, db)
  else
    (true,
     { wal := db.wal ++ [DbDelta.removeVertexDelta txId v.gid],
       expiredGids := v.gid :: db.expiredGids })

/-! ## Durability: WAL recovery skip logic (`durability::RecoverWal`)

`RecoverWal` computes `first_to_recover` and a `should_skip` predicate
over delta transaction ids; a decoded delta is replayed exactly when
`should_skip` is false.  Transaction ids are `Nat`. -/

/-- The `first_to_recover` computation of `RecoverWal`:
`tx_sn.empty() ? snapshooter_tx_id + 1 : *std::min(tx_sn.begin(),
tx_sn.end())`.  Note that the source applies `std::min` to the two
iterators themselves; for a non-empty vector `begin() < end()`, so
`std::min` returns `begin()` and the dereference yields the FIRST element
of the vector, not its minimum. -/
def firstToRecover (snapshooterTxId : Nat) (txSn : List Nat) : Nat :=
  match txSn with
  | [] => snapshooterTxId + 1
  | x :: _ => x

/-- The `should_skip` lambda of `RecoverWal`: skip a delta when its
transaction id is below `first_to_recover`, or below the snapshooter
transaction id while not contained in the snapshooter snapshot
(`utils::Contains(tx_sn, tx_id)` is vector membership). -/
def shouldSkip (snapshooterTxId : Nat) (txSn : List Nat) (txId : Nat) :
    Bool :=
  decide (txId < firstToRecover snapshooterTxId txSn) ||
  (decide (txId < snapshooterTxId) && !(txSn.contains txId))

/-- The `first_to_recover` value described by the specification and the
claim: the minimum element of the snapshooter snapshot when non-empty,
else `snapshooter_tx_id + 1`. -/
def firstToRecoverSpec (snapshooterTxId : Nat) (txSn : List Nat) : Nat :=
  match txSn with
  | [] => snapshooterTxId + 1
  | x :: xs => xs.foldl Nat.min x

/-- The skip predicate described by the claim, using the true minimum. -/
def shouldSkipSpec (snapshooterTxId : Nat) (txSn : List Nat) (txId : Nat) :
    Bool :=
  decide (txId < firstToRecoverSpec snapshooterTxId txSn) ||
  (decide (txId < snapshooterTxId) && !(txSn.contains txId))

/-! ## Durability: snapshot recovery (`durability::RecoverSnapshot`)

The `HashedFileReader` / bolt decoder pair is modelled as an
already-tokenised value stream: `tokens` holds the decoded values in file
order and a read with a type expectation fails exactly when the stream is
exhausted or the next value has the wrong type, mirroring
`decoder.ReadValue(&dv, Type::X)`.  The header reads (`Open`, the magic
bytes, `ReadSnapshotSummary`) and the final `Close`/hash pair are carried
as fields of the file.  The vertex/edge generator bumps mutate only the id
generators and are irrelevant to every claim, so they are not carried in
the result.  The values inside property maps are opaque here. -/

/-- Decoded vertex record of a snapshot (`DecodedValue::Vertex`). -/
structure SnapVertexRec where
  gid : Nat
  labels : List String
  props : List (String × Int)
deriving Repr, DecidableEq

/-- Decoded edge record of a snapshot (`DecodedValue::Edge`). -/
structure SnapEdgeRec where
  gid : Nat
  fromGid : Nat
  toGid : Nat
  edgeType : String
  props : List (String × Int)
deriving Repr, DecidableEq

/-- One decoded value in the snapshot value stream. -/
inductive SnapVal
  | intVal (i : Int)
  | strVal (s : String)
  | listVal (xs : List SnapVal)
  | vertexVal (v : SnapVertexRec)
  | edgeVal (e : SnapEdgeRec)
deriving Repr

/-- A snapshot file, with the outcome of the non-value reads and the
tokenised value stream. -/
structure SnapshotFile where
  openOk : Bool
  magicOk : Bool
  summaryOk : Bool
  vertexCount : Nat
  edgeCount : Nat
  storedHash : Nat
  tokens : List SnapVal
  computedHash : Nat
  closeOk : Bool

/-- The snapshot format version constant `durability::kVersion`
(`durability/version.hpp` is not among the shown sources; only equality
with the value read from the file is ever used). -/
def kVersion : Int := 6

/-- The recovery exchange structure (`RecoveryData`). -/
structure RecoveryData where
  snapshooterTxId : Nat
  snapshooterTxSnapshot : List Nat
  indexes : List (String × String)
deriving Repr, DecidableEq

/-- `RecoveryData::Clear()`, also the initial value in `Recover`. -/
def recoveryDataClear : RecoveryData :=
  { snapshooterTxId := 0, snapshooterTxSnapshot := [], indexes := [] }

/-- Read one `Int` value from the stream (`ReadValue(&dv, Type::Int)`). -/
def readInt : List SnapVal → Option (Int × List SnapVal)
  | SnapVal.intVal i :: rest => some (i, rest)
  | _ => none

/-- Read one `List` value from the stream. -/
def readList : List SnapVal → Option (List SnapVal × List SnapVal)
  | SnapVal.listVal xs :: rest => some (xs, rest)
  | _ => none

/-- The snapshooter-snapshot decoding loop: every element must be an
`Int` and is appended as it is checked, so a failure keeps the already
appended prefix (`RETURN_IF_NOT(value.IsInt());
...emplace_back(value.ValueInt())`). -/
def collectInts : List SnapVal → List Nat × Bool
  | [] => ([], true)
  | SnapVal.intVal i :: rest =>
    let r := collectInts rest
    (i.toNat :: r.1, r.2)
  | _ :: _ => ([], false)

/-- The index-list decoding loop: values are consumed in label/property
pairs, both must be strings, and a lone trailing value fails
(`RETURN_IF_NOT(it != index_value.end())`). -/
def collectIndexPairs : List SnapVal → List (String × String) × Bool
  | [] => ([], true)
  | [_] => ([], false)
  | SnapVal.strVal la :: SnapVal.strVal pr :: rest =>
    let r := collectIndexPairs rest
    ((la, pr) :: r.1, r.2)
  | _ :: _ :: _ => ([], false)

/-- The vertex loop: read exactly `vertex_count` vertex values. -/
def readVertices : Nat → List SnapVal →
    Option (List SnapVertexRec × List SnapVal)
  | 0, toks => some ([], toks)
  | n + 1, SnapVal.vertexVal v :: rest =>
    match readVertices n rest with
    | some (vs, rest2) => some (v :: vs, rest2)
    | none => none
  | _ + 1, _ => none

/-- The edge loop: read exactly `edge_count` edge values, requiring both
endpoints among the recovered vertex gids
(`RETURN_IF_NOT(it_from != vertices.end() && it_to != vertices.end())`). -/
def readEdges (vertexGids : List Nat) : Nat → List SnapVal →
    Option (List SnapEdgeRec × List SnapVal)
  | 0, toks => some ([], toks)
  | n + 1, SnapVal.edgeVal e :: rest =>
    if vertexGids.contains e.fromGid && vertexGids.contains e.toGid then
      match readEdges vertexGids n rest with
      | some (es, rest2) => some (e :: es, rest2)
      | none => none
    else none
  | _ + 1, _ => none

/-- The graph content committed by a successful snapshot recovery
transaction. -/
structure GraphContent where
  vertices : List SnapVertexRec
  edges : List SnapEdgeRec
deriving Repr, DecidableEq

/-- `durability::RecoverSnapshot`: the result is the returned `Bool`, the
`RecoveryData` as mutated by the call, and the content committed by the
recovery transaction (`none` when the transaction was not committed, i.e.
on every failing path: early `RETURN_IF_NOT` exits abandon the accessor,
whose destructor aborts, and the hash mismatch calls `dba.Abort()`
explicitly). -/
def recoverSnapshot (f : SnapshotFile) (rd : RecoveryData) :
    Bool × RecoveryData × Option GraphContent :=
  if !f.openOk then (false, rd, none)
  else if !f.magicOk then (false, rd, none)
  else if !f.summaryOk then (false, rd, none)
  else
    match readInt f.tokens with
    | none => (false, rd, none)
    | some (ver, rest1) =>
      if ver ≠ kVersion then (false, rd, none)
      else
        match readInt rest1 with
        | none => (false, rd, none)
        | some (_, rest2) =>
          match readInt rest2 with
          | none => (false, rd, none)
          | some (_, rest3) =>
            match readInt rest3 with
            | none => (false, rd, none)
            | some (snapTxId, rest4) =>
              let rd1 := { rd with snapshooterTxId := snapTxId.toNat }
              match readList rest4 with
              | none => (false, rd1, none)
              | some (snapList, rest5) =>
                let ints := collectInts snapList
                let rd2 := { rd1 with snapshooterTxSnapshot :=
                               rd1.snapshooterTxSnapshot ++ ints.1 }
                if !ints.2 then (false, rd2, none)
                else
                  match readList rest5 with
                  | none => (false, rd2, none)
                  | some (idxList, rest6) =>
                    let pairs := collectIndexPairs idxList
                    let rd3 := { rd2 with indexes := rd2.indexes ++ pairs.1 }
                    if !pairs.2 then (false, rd3, none)
                    else
                      match readVertices f.vertexCount rest6 with
                      | none => (false, rd3, none)
                      | some (vs, rest7) =>
                        match readEdges (vs.map SnapVertexRec.gid)
                            f.edgeCount rest7 with
                        | none => (false, rd3, none)
                        | some (es, _) =>
                          if !f.closeOk || f.computedHash ≠ f.storedHash then
                            (false, rd3, none)
                          else
                            (true, rd3, some { vertices := vs, edges := es })

/-! ## Durability: top-level recovery (`durability::Recover`, `RecoverWal`)

Directory enumeration yields files with a path key (filenames encode the
timestamp respectively the maximal transaction id, so path order is
chronological order); `std::sort(rbegin, rend)` sorts paths descending,
`std::sort(begin, end)` ascending. -/

/-- Insert into a list kept descending by path key. -/
def insertDescBy {β : Type} (x : Nat × β) : List (Nat × β) → List (Nat × β)
  | [] => [x]
  | y :: ys => if x.1 ≥ y.1 then x :: y :: ys else y :: insertDescBy x ys

/-- Sort files by path key, descending (newest first):
`std::sort(snapshot_files.rbegin(), snapshot_files.rend())`. -/
def sortFilesDesc {β : Type} (files : List (Nat × β)) : List (Nat × β) :=
  files.foldr insertDescBy []

/-- Insert into a list kept ascending by path key. -/
def insertAscBy {β : Type} (x : Nat × β) : List (Nat × β) → List (Nat × β)
  | [] => [x]
  | y :: ys => if x.1 ≤ y.1 then x :: y :: ys else y :: insertAscBy x ys

/-- Sort files by path key, ascending:
`std::sort(wal_files.begin(), wal_files.end())`. -/
def sortFilesAsc {β : Type} (files : List (Nat × β)) : List (Nat × β) :=
  files.foldr insertAscBy []

/-- The snapshot loop of `Recover`: try each file in order; on failure
clear the recovery data (`recovery_data.Clear()`) and continue with the
next file, on success stop. -/
def trySnapshots : List SnapshotFile → RecoveryData →
    RecoveryData × Option GraphContent
  | [], rd => (rd, none)
  | f :: rest, rd =>
    match recoverSnapshot f rd with
    | (true, rd2, content) => (rd2, content)
    | (false, _, _) => trySnapshots rest recoveryDataClear

/-- Whether a snapshot file passes the whole validation chain of
`RecoverSnapshot`. -/
def snapshotValidates (f : SnapshotFile) : Bool :=
  (recoverSnapshot f recoveryDataClear).1

/-- A WAL file: the transaction id parsed from its filename
(`TransactionIdFromWalFilename`, `none` when unparsable), whether it can
be opened, and the transaction ids of the deltas that decode from it (the
decodable prefix; `StateDelta::Decode` returning `nullopt` ends the
loop). -/
structure WalFile where
  nameTxId : Option Nat
  openOk : Bool
  deltaTxIds : List Nat
deriving Repr, DecidableEq

/-- The per-file WAL replay loop body: every decoded delta is replayed
exactly when `should_skip` of its transaction id is false. -/
def replayedOfFile (snapshooterTxId : Nat) (txSn : List Nat)
    (w : WalFile) : List Nat :=
  w.deltaTxIds.filter (fun t => !shouldSkip snapshooterTxId txSn t)

/-- `durability::RecoverWal` over sorted WAL files: a missing WAL
directory returns true immediately; files whose filename id is missing or
below `first_to_recover` are skipped; a file that fails to open returns
false; otherwise the decodable deltas are replayed (those not skipped),
and reaching the end returns true.  The second component collects the
transaction ids of the deltas actually replayed, in order. -/
def recoverWalFiles (snapshooterTxId : Nat) (txSn : List Nat) :
    List WalFile → List Nat → Bool × List Nat
  | [], acc => (true, acc)
  | w :: rest, acc =>
    match w.nameTxId with
    | none => recoverWalFiles snapshooterTxId txSn rest acc
    | some fileTxId =>
      if fileTxId < firstToRecover snapshooterTxId txSn then
        recoverWalFiles snapshooterTxId txSn rest acc
      else if !w.openOk then (false, acc)
      else recoverWalFiles snapshooterTxId txSn rest
        (acc ++ replayedOfFile snapshooterTxId txSn w)

/-- `durability::RecoverWal`: `if (!fs::exists(wal_dir)) return true;`,
then sort the files by path ascending and run the replay loop. -/
def recoverWal (walDirExists : Bool) (walFiles : List (Nat × WalFile))
    (rd : RecoveryData) : Bool × List Nat :=
  if !walDirExists then (true, [])
  else
    recoverWalFiles rd.snapshooterTxId rd.snapshooterTxSnapshot
      ((sortFilesAsc walFiles).map Prod.snd) []

/-- A durability directory: snapshot files and WAL files, keyed by path. -/
structure DurabilityDir where
  snapshotFiles : List (Nat × SnapshotFile)
  walDirExists : Bool
  walFiles : List (Nat × WalFile)

/-- `durability::Recover`: enumerate snapshot files, sort them newest
first, run the snapshot loop, run WAL recovery (its return value is
deliberately ignored by the source), rebuild the collected indexes under
a final committed accessor, and return true.  The result records the
returned flag, the final recovery data (whose `indexes` component is what
gets rebuilt), the committed snapshot content, and the replayed WAL
delta transaction ids. -/
def recover (d : DurabilityDir) :
    Bool × RecoveryData × Option GraphContent × List Nat :=
  let snaps := (sortFilesDesc d.snapshotFiles).map Prod.snd
  let sr := trySnapshots snaps recoveryDataClear
  let wr := recoverWal d.walDirExists d.walFiles sr.1
  (true, sr.1, sr.2, wr.2)

/-! ## Auxiliary definitions used by the statements -/

/-- Minimum of a list of transaction ids (0 for the empty list; every list
it is applied to is non-empty). -/
def listMinD : List Nat → Nat
  | [] => 0
  | x :: xs => xs.foldl Nat.min x

/-- Number of `Begin` calls in a sequence of engine operations. -/
def countBegins (ops : List EngOp) : Nat :=
  ops.countP (fun op => decide (op = EngOp.opBegin))

/-- Invariants of the engine state maintained by every operation.  The
state components are exactly what the `SingleNodeEngine` data members hold
between calls: the active set is the sorted set of ids of live
transactions, all of them issued (positive and at most the counter),
each with a stored transaction object whose snapshot only holds older
ids; the two closure properties say that the snapshot of any active
transaction contains every still-active older transaction, and that
anything in an active transaction's snapshot that is older than another
active transaction is also in that transaction's snapshot. -/
structure EngInv (s : EngineState) : Prop where
  sortedActive : List.Sorted (· < ·) s.active
  activeBounds : ∀ a ∈ s.active, 1 ≤ a ∧ a ≤ s.counter
  activeStored : ∀ a ∈ s.active, ∃ t, s.store.lookup a = some t
  snapOlder : ∀ u t, s.store.lookup u = some t → ∀ x ∈ t.snapshot, x < u
  activeInSnap : ∀ u ∈ s.active, ∀ t, s.store.lookup u = some t →
    ∀ x ∈ s.active, x < u → x ∈ t.snapshot
  snapClosure : ∀ u ∈ s.active, ∀ v ∈ s.active, u < v →
    ∀ tu tv, s.store.lookup u = some tu → s.store.lookup v = some tv →
    ∀ x ∈ tv.snapshot, x < u → x ∈ tu.snapshot

/-- Invariants of the mapper state maintained by `NameToId`. -/
structure MapInv (m : MapperState) : Prop where
  consist : ∀ n i, m.nameToIdMap.lookup n = some i →
    m.idToNameMap.lookup i = some n
  nameBound : ∀ n i, m.nameToIdMap.lookup n = some i → i < m.counter
  idBound : ∀ i n, m.idToNameMap.lookup i = some n → i < m.counter

/-- A concrete snapshot file that fails only its hash check, used to
instantiate the recovery theorems. -/
def badHashFile : SnapshotFile :=
  { openOk := true, magicOk := true, summaryOk := true,
    vertexCount := 0, edgeCount := 0, storedHash := 1,
    tokens := [SnapVal.intVal kVersion, SnapVal.intVal 0, SnapVal.intVal 0,
               SnapVal.intVal 5, SnapVal.listVal [], SnapVal.listVal []],
    computedHash := 2, closeOk := true }

/-- A concrete snapshot file that validates and carries an empty graph. -/
def goodEmptyFile : SnapshotFile :=
  { openOk := true, magicOk := true, summaryOk := true,
    vertexCount := 0, edgeCount := 0, storedHash := 1,
    tokens := [SnapVal.intVal kVersion, SnapVal.intVal 0, SnapVal.intVal 0,
               SnapVal.intVal 5, SnapVal.listVal [], SnapVal.listVal []],
    computedHash := 1, closeOk := true }

/-! ## Helper lemmas -/

theorem mem_snapInsert (x y : Nat) (l : List Nat) :
    x ∈ snapInsert y l ↔ x = y ∨ x ∈ l := by
  induction l with
  | nil => simp [snapInsert]
  | cons a t ih =>
    by_cases h : y ≤ a
    · simp [snapInsert, h]
    · simp only [snapInsert, if_neg h, List.mem_cons, ih]
      tauto

theorem sorted_snapInsert_top (x : Nat) (l : List Nat)
    (hs : List.Sorted (· < ·) l) (hbig : ∀ y ∈ l, y < x) :
    List.Sorted (· < ·) (snapInsert x l) := by
  induction l with
  | nil => simp [snapInsert]
  | cons a t ih =>
    have hax : a < x := hbig a (by simp)
    have h : ¬ x ≤ a := by omega
    rw [snapInsert, if_neg h]
    rw [List.sorted_cons] at hs
    rw [List.sorted_cons]
    refine ⟨?_, ih hs.2 (fun y hy => hbig y (by simp [hy]))⟩
    intro b hb
    rcases (mem_snapInsert b x t).mp hb with h1 | h1
    · omega
    · exact hs.1 b h1

theorem mem_snapRemove (x y : Nat) (l : List Nat) :
    x ∈ snapRemove y l ↔ x ∈ l ∧ x ≠ y := by
  simp [snapRemove, List.mem_filter]

theorem sorted_snapRemove (y : Nat) (l : List Nat)
    (hs : List.Sorted (· < ·) l) :
    List.Sorted (· < ·) (snapRemove y l) :=
  List.Pairwise.sublist (List.filter_sublist l) hs

theorem lookup_txn_cons_self (k : Nat) (t : Txn) (l : List (Nat × Txn)) :
    ((k, t) :: l).lookup k = some t := by
  simp [List.lookup]

theorem lookup_txn_cons_ne (a k : Nat) (t : Txn) (l : List (Nat × Txn))
    (h : a ≠ k) : ((k, t) :: l).lookup a = l.lookup a := by
  have hbeq : (a == k) = false := by simp [h]
  simp [List.lookup, hbeq]

theorem lookup_txn_filter_ne (a k : Nat) (l : List (Nat × Txn)) (h : a ≠ k) :
    (l.filter (fun p => p.1 ≠ k)).lookup a = l.lookup a := by
  induction l with
  | nil => simp
  | cons p t ih =>
    rcases p with ⟨k2, t2⟩
    have ih2 : (List.filter (fun p => !decide (p.1 = k)) t).lookup a =
        t.lookup a := by simpa using ih
    by_cases hp : k2 = k
    · subst hp
      have hbeq : (a == k2) = false := by simp [h]
      simp [List.filter_cons, List.lookup, hbeq, ih2]
    · by_cases ha : a = k2
      · subst ha
        simp [List.filter_cons, hp, List.lookup, ih2]
      · have hbeq : (a == k2) = false := by simp [ha]
        simp [List.filter_cons, hp, List.lookup, hbeq, ih2]

theorem lookup_txn_map_update (a k : Nat) (g : Txn → Txn)
    (l : List (Nat × Txn)) :
    (l.map (fun p => if p.1 = k then (p.1, g p.2) else p)).lookup a =
      if a = k then (l.lookup a).map g else l.lookup a := by
  induction l with
  | nil => simp
  | cons p t ih =>
    rcases p with ⟨k2, t2⟩
    rw [List.map_cons]
    by_cases hk : k2 = k
    · have hhead : (if (k2, t2).1 = k then ((k2, t2).1, g (k2, t2).2)
          else (k2, t2)) = (k2, g t2) := by simp [hk]
      rw [hhead]
      by_cases ha : a = k2
      · rw [ha, lookup_txn_cons_self, lookup_txn_cons_self, if_pos hk]
        rfl
      · rw [lookup_txn_cons_ne a k2 _ _ ha, lookup_txn_cons_ne a k2 _ _ ha,
          ih]
    · have hhead : (if (k2, t2).1 = k then ((k2, t2).1, g (k2, t2).2)
          else (k2, t2)) = (k2, t2) := by simp [hk]
      rw [hhead]
      by_cases ha : a = k2
      · rw [ha, lookup_txn_cons_self, if_neg hk, lookup_txn_cons_self]
      · rw [lookup_txn_cons_ne a k2 _ _ ha, lookup_txn_cons_ne a k2 _ _ ha,
          ih]

theorem foldlMin_le_init (t : List Nat) : ∀ a : Nat, t.foldl Nat.min a ≤ a := by
  induction t with
  | nil => intro a; simp
  | cons b t ih =>
    intro a
    calc (b :: t).foldl Nat.min a = t.foldl Nat.min (Nat.min a b) := rfl
    _ ≤ Nat.min a b := ih _
    _ ≤ a := Nat.min_le_left _ _

theorem foldlMin_le_mem (t : List Nat) :
    ∀ a x : Nat, x ∈ t → t.foldl Nat.min a ≤ x := by
  induction t with
  | nil => intro a x hx; simp at hx
  | cons b t ih =>
    intro a x hx
    rcases List.mem_cons.mp hx with h | h
    · subst h
      calc (x :: t).foldl Nat.min a = t.foldl Nat.min (Nat.min a x) := rfl
      _ ≤ Nat.min a x := foldlMin_le_init _ _
      _ ≤ x := Nat.min_le_right _ _
    · exact ih _ x h

theorem listMinD_le_mem (l : List Nat) (x : Nat) (hx : x ∈ l) :
    listMinD l ≤ x := by
  cases l with
  | nil => simp at hx
  | cons a t =>
    rcases List.mem_cons.mp hx with h | h
    · subst h
      exact foldlMin_le_init t x
    · exact foldlMin_le_mem t a x h

/-! ## Claim C1 -/

/-- C1: the claim fails on the code.  With snapshooter tx id 10 and the
(unsorted) snapshot set [7, 3], the source computes
`first_to_recover = *std::min(tx_sn.begin(), tx_sn.end()) = 7` — the
FIRST element of the vector, because `std::min` is applied to the two
iterators rather than through `std::min_element` — and therefore skips
the delta of transaction 3 even though 3 is a member of the snapshot set;
the skip rule stated by the claim and the spec uses the minimum element
(3) and replays that delta. -/
theorem shouldSkip_uses_front_not_min :
    firstToRecover 10 [7, 3] = 7 ∧
    shouldSkip 10 [7, 3] 3 = true ∧
    firstToRecoverSpec 10 [7, 3] = 3 ∧
    shouldSkipSpec 10 [7, 3] 3 = false := by
  decide

/-! ## Claim C4 -/

/-- C4: for a stored transaction with command id below the maximum,
`Advance` returns the incremented command id and updates exactly that
transaction's stored command id, leaving every other store entry and all
other engine state components unchanged; when the command id equals the
maximum, `Advance` throws `TransactionError` and the whole engine state
(hence the transaction, which stays stored and abortable) is unchanged. -/
theorem advance_increments_or_overflow (s : EngineState) (id : Nat) (t : Txn)
    (hstore : s.store.lookup id = some t) :
    (t.cid < cmdIdMax →
      ∃ s2, engAdvance id s = AdvanceResult.ok (t.cid + 1) s2 ∧
        s2.store.lookup id = some { t with cid := t.cid + 1 } ∧
        (∀ j, j ≠ id → s2.store.lookup j = s.store.lookup j) ∧
        s2.counter = s.counter ∧ s2.active = s.active ∧
        s2.committed = s.committed ∧ s2.aborted = s.aborted ∧
        s2.wal = s.wal) ∧
    (t.cid = cmdIdMax →
      engAdvance id s = AdvanceResult.transactionError s) := by
  constructor
  · intro hlt
    have hne : ¬ t.cid = cmdIdMax := by omega
    refine ⟨{ s with store := s.store.map (fun p =>
        if p.1 = id then (p.1, { p.2 with cid := p.2.cid + 1 }) else p) },
      ?_, ?_, ?_, rfl, rfl, rfl, rfl, rfl⟩
    · simp only [engAdvance, hstore]
      rw [if_neg hne]
    · have h := lookup_txn_map_update id id
        (fun x => { x with cid := x.cid + 1 }) s.store
      rw [if_pos rfl, hstore, Option.map_some'] at h
      exact h
    · intro j hj
      have h := lookup_txn_map_update j id
        (fun x => { x with cid := x.cid + 1 }) s.store
      rw [if_neg hj] at h
      exact h
  · intro heq
    simp only [engAdvance, hstore]
    rw [if_pos heq]

/-- Witness for C4 at the engine state after one `Begin`: transaction 1 is
stored with command id 1, which is below the maximum, so `Advance`
returns 2. -/
theorem advance_increments_witness :
    ∃ s2, engAdvance 1 (engRun [EngOp.opBegin]) = AdvanceResult.ok (1 + 1) s2 ∧
      s2.store.lookup 1 =
        some { ({ id := 1, snapshot := [], cid := 1 } : Txn) with
                 cid := 1 + 1 } ∧
      (∀ j, j ≠ 1 →
        s2.store.lookup j = (engRun [EngOp.opBegin]).store.lookup j) ∧
      s2.counter = (engRun [EngOp.opBegin]).counter ∧
      s2.active = (engRun [EngOp.opBegin]).active ∧
      s2.committed = (engRun [EngOp.opBegin]).committed ∧
      s2.aborted = (engRun [EngOp.opBegin]).aborted ∧
      s2.wal = (engRun [EngOp.opBegin]).wal :=
  (advance_increments_or_overflow (engRun [EngOp.opBegin]) 1
    { id := 1, snapshot := [], cid := 1 } (by rfl)).1 (by decide)

/-! ## Claim C7 -/

/-- C7: removing a local vertex whose newest version is not already
expired by the calling transaction and which still has a visible incident
edge (positive out- or in-degree on the newest version) returns false and
performs no mutation: the WAL and the set of expired version lists are
returned exactly as given.  (A version already expired by the calling
transaction cannot have visible incident edges: they were detached before
that earlier removal, so edge visibility presupposes the first
hypothesis.) -/
theorem removeVertex_visible_edge_refused (v : VertexView) (txId : Nat)
    (db : DbContext) (hloc : v.isLocal = true)
    (hnotexp : v.expiredByMe = false)
    (hdeg : 0 < v.outDegree ∨ 0 < v.inDegree) :
    removeVertex v txId db = (false, db) := by
  have hcond : (decide (v.outDegree > 0) || decide (v.inDegree > 0)) = true := by
    rcases hdeg with h | h <;> simp [h]
  simp [removeVertex, hloc, hnotexp, hcond]

/-- Witness for C7: a local, unexpired vertex with one outgoing edge. -/
theorem removeVertex_visible_edge_refused_witness :
    removeVertex
      { isLocal := true, expiredByMe := false, outDegree := 1,
        inDegree := 0, gid := 7 } 3 { wal := [], expiredGids := [] } =
      (false, { wal := [], expiredGids := [] }) :=
  removeVertex_visible_edge_refused _ 3 _ rfl rfl (Or.inl (by decide))

/-! ## Claim C9 -/

/-- C9: removing a local vertex whose newest version was already expired
by the calling transaction returns true and performs no further mutation:
no second expiration is installed and no additional WAL delta is
emitted. -/
theorem removeVertex_already_expired_idempotent (v : VertexView)
    (txId : Nat) (db : DbContext) (hloc : v.isLocal = true)
    (hexp : v.expiredByMe = true) :
    removeVertex v txId db = (true, db) := by
  simp [removeVertex, hloc, hexp]

/-- Witness for C9: a vertex already removed by the same transaction. -/
theorem removeVertex_already_expired_idempotent_witness :
    removeVertex
      { isLocal := true, expiredByMe := true, outDegree := 0,
        inDegree := 0, gid := 9 } 4
      { wal := [DbDelta.removeVertexDelta 4 9], expiredGids := [9] } =
      (true, { wal := [DbDelta.removeVertexDelta 4 9], expiredGids := [9] }) :=
  removeVertex_already_expired_idempotent _ 4 _ rfl rfl

/-! ## Claim C10 -/

/-- C10: `Recover` returns true for every durability directory — the
return value of `RecoverWal` is deliberately ignored and the absence of a
valid (or of any) snapshot does not fail recovery — and a missing WAL
directory makes `RecoverWal` return true immediately with nothing
replayed. -/
theorem recover_always_returns_true :
    (∀ d : DurabilityDir, (recover d).1 = true) ∧
    (∀ (walFiles : List (Nat × WalFile)) (rd : RecoveryData),
      recoverWal false walFiles rd = (true, [])) :=
  ⟨fun _ => rfl, fun _ _ => rfl⟩

/-! ## Engine invariant preservation -/

theorem lookup_txn_filter_self (k : Nat) (l : List (Nat × Txn)) :
    (l.filter (fun p => p.1 ≠ k)).lookup k = none := by
  induction l with
  | nil => simp
  | cons p t ih =>
    rcases p with ⟨k2, t2⟩
    by_cases hp : k2 = k
    · subst hp
      simpa [List.filter_cons] using ih
    · have hbeq : (k == k2) = false := by
        simp only [beq_eq_false_iff_ne, ne_eq]
        intro hc
        exact hp hc.symm
      simpa [List.filter_cons, hp, List.lookup, hbeq] using ih

theorem engInv_init : EngInv engInit := by
  refine ⟨?_, ?_, ?_, ?_, ?_, ?_⟩ <;> simp [engInit]

theorem engInv_begin (s : EngineState) (hs : EngInv s) :
    EngInv (engBegin s).2 := by
  obtain ⟨hsort, hbound, hstored, holder, hinsnap, hclos⟩ := hs
  have hcnt : (engBegin s).2.counter = s.counter + 1 := rfl
  have hact : (engBegin s).2.active = snapInsert (s.counter + 1) s.active :=
    rfl
  have hsto : (engBegin s).2.store =
      (s.counter + 1,
        { id := s.counter + 1, snapshot := s.active, cid := 1 }) ::
        s.store := rfl
  have hneact : ∀ a ∈ s.active, a ≠ s.counter + 1 := by
    intro a ha
    have := hbound a ha
    omega
  refine ⟨?_, ?_, ?_, ?_, ?_, ?_⟩
  · rw [hact]
    refine sorted_snapInsert_top _ _ hsort ?_
    intro y hy
    have := hbound y hy
    omega
  · intro a ha
    rw [hact] at ha
    rw [hcnt]
    rcases (mem_snapInsert a _ _).mp ha with h | h
    · omega
    · have := hbound a h
      omega
  · intro a ha
    rw [hact] at ha
    rw [hsto]
    rcases (mem_snapInsert a _ _).mp ha with h | h
    · subst h
      exact ⟨_, lookup_txn_cons_self _ _ _⟩
    · rw [lookup_txn_cons_ne a _ _ _ (hneact a h)]
      exact hstored a h
  · intro u t hu x hx
    rw [hsto] at hu
    by_cases h : u = s.counter + 1
    · subst h
      rw [lookup_txn_cons_self] at hu
      cases hu
      have := hbound x hx
      omega
    · rw [lookup_txn_cons_ne u _ _ _ h] at hu
      exact holder u t hu x hx
  · intro u hu t ht x hx hxu
    rw [hact] at hu hx
    rw [hsto] at ht
    rcases (mem_snapInsert u _ _).mp hu with h | h
    · subst h
      rw [lookup_txn_cons_self] at ht
      cases ht
      rcases (mem_snapInsert x _ _).mp hx with h2 | h2
      · omega
      · exact h2
    · have huc : u ≠ s.counter + 1 := hneact u h
      rw [lookup_txn_cons_ne u _ _ _ huc] at ht
      rcases (mem_snapInsert x _ _).mp hx with h2 | h2
      · have := hbound u h
        omega
      · exact hinsnap u h t ht x h2 hxu
  · intro u hu v hv huv tu tv htu htv x hx hxu
    rw [hact] at hu hv
    rw [hsto] at htu htv
    rcases (mem_snapInsert v _ _).mp hv with h | h
    · subst h
      rw [lookup_txn_cons_self] at htv
      cases htv
      rcases (mem_snapInsert u _ _).mp hu with h2 | h2
      · omega
      · have huc : u ≠ s.counter + 1 := hneact u h2
        rw [lookup_txn_cons_ne u _ _ _ huc] at htu
        exact hinsnap u h2 tu htu x hx hxu
    · have hvc : v ≠ s.counter + 1 := hneact v h
      rw [lookup_txn_cons_ne v _ _ _ hvc] at htv
      rcases (mem_snapInsert u _ _).mp hu with h2 | h2
      · have := hbound v h
        omega
      · have huc : u ≠ s.counter + 1 := hneact u h2
        rw [lookup_txn_cons_ne u _ _ _ huc] at htu
        exact hclos u h2 v h huv tu tv htu htv x hx hxu

theorem engInv_remove (s : EngineState) (id : Nat) (hs : EngInv s)
    (s2 : EngineState) (hact : s2.active = snapRemove id s.active)
    (hsto : s2.store = s.store.filter (fun p => p.1 ≠ id))
    (hcnt : s2.counter = s.counter) : EngInv s2 := by
  obtain ⟨hsort, hbound, hstored, holder, hinsnap, hclos⟩ := hs
  have hmem : ∀ a, a ∈ s2.active → a ∈ s.active ∧ a ≠ id := by
    intro a ha
    rw [hact] at ha
    exact (mem_snapRemove a id s.active).mp ha
  have hlook : ∀ a, a ≠ id → s2.store.lookup a = s.store.lookup a := by
    intro a ha
    rw [hsto]
    exact lookup_txn_filter_ne a id s.store ha
  refine ⟨?_, ?_, ?_, ?_, ?_, ?_⟩
  · rw [hact]
    exact sorted_snapRemove id s.active hsort
  · intro a ha
    obtain ⟨h1, _⟩ := hmem a ha
    have := hbound a h1
    omega
  · intro a ha
    obtain ⟨h1, h2⟩ := hmem a ha
    rw [hlook a h2]
    exact hstored a h1
  · intro u t hu x hx
    by_cases h : u = id
    · subst h
      rw [hsto, lookup_txn_filter_self] at hu
      cases hu
    · rw [hlook u h] at hu
      exact holder u t hu x hx
  · intro u hu t ht x hx hxu
    obtain ⟨h1, h2⟩ := hmem u hu
    obtain ⟨h3, _⟩ := hmem x hx
    rw [hlook u h2] at ht
    exact hinsnap u h1 t ht x h3 hxu
  · intro u hu v hv huv tu tv htu htv x hx hxu
    obtain ⟨h1, h2⟩ := hmem u hu
    obtain ⟨h3, h4⟩ := hmem v hv
    rw [hlook u h2] at htu
    rw [hlook v h4] at htv
    exact hclos u h1 v h3 huv tu tv htu htv x hx hxu

theorem engInv_mapcid (s : EngineState) (id : Nat) (hs : EngInv s) :
    EngInv { s with store := s.store.map (fun p =>
      if p.1 = id then (p.1, { p.2 with cid := p.2.cid + 1 }) else p) } := by
  obtain ⟨hsort, hbound, hstored, holder, hinsnap, hclos⟩ := hs
  have hlook : ∀ a, (s.store.map (fun p =>
      if p.1 = id then (p.1, { p.2 with cid := p.2.cid + 1 })
      else p)).lookup a =
      if a = id then
        (s.store.lookup a).map (fun x => { x with cid := x.cid + 1 })
      else s.store.lookup a :=
    fun a => lookup_txn_map_update a id (fun x => { x with cid := x.cid + 1 })
      s.store
  have hsnap : ∀ a t, (s.store.map (fun p =>
      if p.1 = id then (p.1, { p.2 with cid := p.2.cid + 1 })
      else p)).lookup a = some t →
      ∃ t0, s.store.lookup a = some t0 ∧ t.snapshot = t0.snapshot := by
    intro a t ht
    rw [hlook a] at ht
    by_cases h : a = id
    · rw [if_pos h] at ht
      rcases Option.map_eq_some'.mp ht with ⟨t0, ht0, hmap⟩
      exact ⟨t0, ht0, by rw [← hmap]⟩
    · rw [if_neg h] at ht
      exact ⟨t, ht, rfl⟩
  refine ⟨hsort, hbound, ?_, ?_, ?_, ?_⟩
  · intro a ha
    show ∃ t, (s.store.map _).lookup a = some t
    rw [hlook a]
    obtain ⟨t0, ht0⟩ := hstored a ha
    by_cases h : a = id
    · rw [if_pos h, ht0]
      exact ⟨_, rfl⟩
    · rw [if_neg h]
      exact ⟨t0, ht0⟩
  · intro u t hu x hx
    obtain ⟨t0, ht0, hsn⟩ := hsnap u t hu
    rw [hsn] at hx
    exact holder u t0 ht0 x hx
  · intro u hu t ht x hx hxu
    obtain ⟨t0, ht0, hsn⟩ := hsnap u t ht
    rw [hsn]
    exact hinsnap u hu t0 ht0 x hx hxu
  · intro u hu v hv huv tu tv htu htv x hx hxu
    obtain ⟨tu0, htu0, hsnu⟩ := hsnap u tu htu
    obtain ⟨tv0, htv0, hsnv⟩ := hsnap v tv htv
    rw [hsnv] at hx
    rw [hsnu]
    exact hclos u hu v hv huv tu0 tv0 htu0 htv0 x hx hxu

theorem engAdvance_shape (id : Nat) (s : EngineState) :
    engAdvance id s = AdvanceResult.noSuchTransaction ∨
    engAdvance id s = AdvanceResult.transactionError s ∨
    engAdvance id s = AdvanceResult.ok
      (((s.store.lookup id).getD { id := 0, snapshot := [], cid := 0 }).cid + 1)
      { s with store := s.store.map (fun p =>
          if p.1 = id then (p.1, { p.2 with cid := p.2.cid + 1 })
          else p) } := by
  rcases h : s.store.lookup id with _ | t
  · left
    simp [engAdvance, h]
  · by_cases hc : t.cid = cmdIdMax
    · right; left
      simp [engAdvance, h, hc]
    · right; right
      simp [engAdvance, h, hc]

theorem engInv_step (s : EngineState) (hs : EngInv s) (op : EngOp) :
    EngInv (engStep s op) := by
  cases op with
  | opBegin => exact engInv_begin s hs
  | opAdvance id =>
    rcases engAdvance_shape id s with h | h | h <;>
      simp only [engStep, h] <;> first
        | exact hs
        | exact engInv_mapcid s id hs
  | opCommit id =>
    by_cases h : (s.store.lookup id).isSome
    · simp only [engStep, h, if_true]
      exact engInv_remove s id hs (engCommit id s) rfl rfl rfl
    · simp only [engStep, h, if_false]
      exact hs
  | opAbort id =>
    by_cases h : (s.store.lookup id).isSome
    · simp only [engStep, h, if_true]
      exact engInv_remove s id hs (engAbort id s) rfl rfl rfl
    · simp only [engStep, h, if_false]
      exact hs

theorem engInv_foldl (ops : List EngOp) :
    ∀ s : EngineState, EngInv s → EngInv (ops.foldl engStep s) := by
  induction ops with
  | nil => intro s hs; exact hs
  | cons op rest ih =>
    intro s hs
    exact ih (engStep s op) (engInv_step s hs op)

theorem engInv_run (ops : List EngOp) : EngInv (engRun ops) :=
  engInv_foldl ops engInit engInv_init

/-! ## Claim C3 lemmas -/

theorem engStep_counter_nonbegin (s : EngineState) (op : EngOp)
    (h : op ≠ EngOp.opBegin) : (engStep s op).counter = s.counter := by
  cases op with
  | opBegin => exact absurd rfl h
  | opAdvance id =>
    rcases engAdvance_shape id s with h2 | h2 | h2 <;>
      simp only [engStep, h2]
  | opCommit id =>
    by_cases h2 : (s.store.lookup id).isSome <;>
      simp only [engStep, h2, if_true, if_false] <;> rfl
  | opAbort id =>
    by_cases h2 : (s.store.lookup id).isSome <;>
      simp only [engStep, h2, if_true, if_false] <;> rfl

theorem issued_foldl (ops : List EngOp) :
    ∀ (s : EngineState) (acc : List Nat),
      ops.foldl issuedStep (s, acc) =
        (ops.foldl engStep s,
          acc ++ List.range' (s.counter + 1) (countBegins ops)) := by
  induction ops with
  | nil =>
    intro s acc
    simp [countBegins]
  | cons op rest ih =>
    intro s acc
    rw [List.foldl_cons, List.foldl_cons]
    cases op with
    | opBegin =>
      have hhead : issuedStep (s, acc) EngOp.opBegin =
          (engStep s EngOp.opBegin, acc ++ [s.counter + 1]) := rfl
      rw [hhead, ih]
      have hcnt : (engStep s EngOp.opBegin).counter = s.counter + 1 := rfl
      have hcb : countBegins (EngOp.opBegin :: rest) = countBegins rest + 1 := by
        simp [countBegins, List.countP_cons]
      rw [hcnt, hcb]
      have hr : List.range' (s.counter + 1) (countBegins rest + 1) =
          (s.counter + 1) :: List.range' (s.counter + 1 + 1)
            (countBegins rest) := by
        exact List.range'_succ _ _ _
      rw [hr, List.append_assoc, List.singleton_append]
    | opAdvance id =>
      have hhead : issuedStep (s, acc) (EngOp.opAdvance id) =
          (engStep s (EngOp.opAdvance id), acc) := rfl
      rw [hhead, ih]
      have hcnt := engStep_counter_nonbegin s (EngOp.opAdvance id) (by simp)
      have hcb : countBegins (EngOp.opAdvance id :: rest) = countBegins rest := by
        simp [countBegins, List.countP_cons]
      rw [hcnt, hcb]
    | opCommit id =>
      have hhead : issuedStep (s, acc) (EngOp.opCommit id) =
          (engStep s (EngOp.opCommit id), acc) := rfl
      rw [hhead, ih]
      have hcnt := engStep_counter_nonbegin s (EngOp.opCommit id) (by simp)
      have hcb : countBegins (EngOp.opCommit id :: rest) = countBegins rest := by
        simp [countBegins, List.countP_cons]
      rw [hcnt, hcb]
    | opAbort id =>
      have hhead : issuedStep (s, acc) (EngOp.opAbort id) =
          (engStep s (EngOp.opAbort id), acc) := rfl
      rw [hhead, ih]
      have hcnt := engStep_counter_nonbegin s (EngOp.opAbort id) (by simp)
      have hcb : countBegins (EngOp.opAbort id :: rest) = countBegins rest := by
        simp [countBegins, List.countP_cons]
      rw [hcnt, hcb]

theorem issuedIds_range (ops : List EngOp) :
    issuedIds ops = List.range' 1 (countBegins ops) := by
  unfold issuedIds
  rw [issued_foldl ops engInit []]
  rfl

/-! ## Claim C3 -/

/-- C3: at any reachable engine state, `Begin` allocates `id = counter + 1`
(so after any run the ids handed out so far are exactly 1, 2, 3, …: the
list of issued ids is `range' 1 k`, strictly increasing, duplicate-free
and never 0, hence no id is ever reused), the new transaction's snapshot
is exactly the active set immediately before the call — which cannot
contain the new id — and the same atomic step inserts the id into the
active set and appends a `TxBegin(id)` delta to the WAL. -/
theorem begin_issues_fresh_monotonic_ids :
    (∀ ops : List EngOp,
      (engBegin (engRun ops)).1.id = (engRun ops).counter + 1 ∧
      (engBegin (engRun ops)).1.snapshot = (engRun ops).active ∧
      (engBegin (engRun ops)).1.id ∉ (engRun ops).active ∧
      (engBegin (engRun ops)).2.counter = (engRun ops).counter + 1 ∧
      (engBegin (engRun ops)).2.active =
        snapInsert ((engBegin (engRun ops)).1.id) (engRun ops).active ∧
      (engBegin (engRun ops)).2.wal =
        (engRun ops).wal ++
          [EngDelta.txBegin ((engBegin (engRun ops)).1.id)]) ∧
    (∀ ops : List EngOp, issuedIds ops = List.range' 1 (countBegins ops)) ∧
    (∀ ops : List EngOp, List.Sorted (· < ·) (issuedIds ops) ∧
      (issuedIds ops).Nodup ∧ (0 : Nat) ∉ issuedIds ops) := by
  refine ⟨?_, issuedIds_range, ?_⟩
  · intro ops
    refine ⟨rfl, rfl, ?_, rfl, rfl, rfl⟩
    intro hmem
    have hb := (engInv_run ops).activeBounds _ hmem
    have : (engBegin (engRun ops)).1.id = (engRun ops).counter + 1 := rfl
    omega
  · intro ops
    rw [issuedIds_range]
    refine ⟨List.pairwise_lt_range' 1 (countBegins ops),
      List.nodup_range' 1 (countBegins ops), ?_⟩
    intro h
    rw [List.mem_range'_1] at h
    omega

/-! ## Claim C2 -/

/-- C2: `GlobalGcSnapshot` with an empty active set returns the active-set
copy with `counter + 1` inserted, i.e. exactly `[counter + 1]`; at any
reachable state with a non-empty active set it returns the snapshot of
the stored transaction of `active_.front()` with that front id inserted,
and the front id is the oldest (smallest) active id; consequently, for
every active transaction `u`, every transaction id `u` may still need to
see — a member of `u`'s own snapshot or `u` itself — is at least the
minimum of the returned snapshot, so garbage collection of everything
below that minimum cannot lose a version an active reader needs. -/
theorem gcSnapshot_protects_active_readers :
    (∀ s : EngineState, s.active = [] →
      engGcSnapshot s = [s.counter + 1]) ∧
    (∀ (ops : List EngOp) (front : Nat) (rest : List Nat),
      (engRun ops).active = front :: rest →
      ∃ t, (engRun ops).store.lookup front = some t ∧
        engGcSnapshot (engRun ops) = snapInsert front t.snapshot ∧
        ∀ a ∈ (engRun ops).active, front ≤ a) ∧
    (∀ (ops : List EngOp) (u : Nat) (tu : Txn) (x : Nat),
      u ∈ (engRun ops).active →
      (engRun ops).store.lookup u = some tu →
      (x ∈ tu.snapshot ∨ x = u) →
      listMinD (engGcSnapshot (engRun ops)) ≤ x) := by
  have hfront : ∀ (ops : List EngOp) (front : Nat) (rest : List Nat),
      (engRun ops).active = front :: rest →
      ∃ t, (engRun ops).store.lookup front = some t ∧
        engGcSnapshot (engRun ops) = snapInsert front t.snapshot ∧
        ∀ a ∈ (engRun ops).active, front ≤ a := by
    intro ops front rest hact
    have hinv := engInv_run ops
    have hmem : front ∈ (engRun ops).active := by
      rw [hact]
      exact List.mem_cons_self front rest
    obtain ⟨t, ht⟩ := hinv.activeStored front hmem
    refine ⟨t, ht, ?_, ?_⟩
    · unfold engGcSnapshot
      rw [hact]
      simp only [ht, Option.getD_some]
    · intro a ha
      rw [hact] at ha
      rcases List.mem_cons.mp ha with h | h
      · omega
      · have hsorted := hinv.sortedActive
        rw [hact, List.sorted_cons] at hsorted
        have := hsorted.1 a h
        omega
  refine ⟨?_, hfront, ?_⟩
  · intro s hs
    unfold engGcSnapshot
    rw [hs]
    rfl
  · intro ops u tu x hu htu hx
    have hinv := engInv_run ops
    rcases hact : (engRun ops).active with _ | ⟨front, rest⟩
    · rw [hact] at hu
      cases hu
    · obtain ⟨tf, htf, hgc, hle⟩ := hfront ops front rest hact
      have hfu : front ≤ u := hle u hu
      rw [hgc]
      have hminfront : listMinD (snapInsert front tf.snapshot) ≤ front :=
        listMinD_le_mem _ front ((mem_snapInsert front front _).mpr
          (Or.inl rfl))
      rcases hx with hx | hx
      · by_cases hxf : front ≤ x
        · omega
        · have hxlt : x < front := by omega
          by_cases huf : u = front
          · rw [huf] at htu
            rw [htu] at htf
            cases htf
            exact listMinD_le_mem _ x
              ((mem_snapInsert x front _).mpr (Or.inr hx))
          · have hflt : front < u := by omega
            have hmemf : front ∈ (engRun ops).active := by
              rw [hact]
              exact List.mem_cons_self front rest
            have hxin : x ∈ tf.snapshot :=
              hinv.snapClosure front hmemf u hu hflt tf tu htf htu x hx hxlt
            exact listMinD_le_mem _ x
              ((mem_snapInsert x front _).mpr (Or.inr hxin))
      · omega

/-- Witness for C2: after two `Begin` calls transaction 2 is active with
snapshot [1]; the GC snapshot of that state is [1] and its minimum bounds
the id 1 that transaction 2 may still need; after the empty run the
active set is empty and the GC snapshot is [counter + 1] = [1]. -/
theorem gcSnapshot_protects_active_readers_witness :
    engGcSnapshot (engRun []) = [(engRun []).counter + 1] ∧
    listMinD (engGcSnapshot (engRun [EngOp.opBegin, EngOp.opBegin])) ≤ 1 :=
  ⟨gcSnapshot_protects_active_readers.1 (engRun []) rfl,
   gcSnapshot_protects_active_readers.2.2 [EngOp.opBegin, EngOp.opBegin]
     2 { id := 2, snapshot := [1], cid := 1 } 1 (by decide) (by rfl)
     (Or.inl (by decide))⟩

/-! ## Claim C5 lemmas -/

theorem lookup_cons_self {α β : Type} [BEq α] [LawfulBEq α] (k : α) (v : β)
    (l : List (α × β)) : ((k, v) :: l).lookup k = some v := by
  simp [List.lookup]

theorem lookup_cons_ne {α β : Type} [BEq α] [LawfulBEq α] (a k : α) (v : β)
    (l : List (α × β)) (h : a ≠ k) : ((k, v) :: l).lookup a = l.lookup a := by
  have hbeq : (a == k) = false := by simp [h]
  simp [List.lookup, hbeq]

theorem mapInv_init : MapInv mapperInit := by
  refine ⟨?_, ?_, ?_⟩ <;> intro a b h <;> simp [mapperInit] at h

theorem idToName_fresh_none (m : MapperState) (hm : MapInv m) :
    m.idToNameMap.lookup m.counter = none := by
  cases h : m.idToNameMap.lookup m.counter with
  | none => rfl
  | some n =>
    have := hm.idBound m.counter n h
    omega

theorem mapInv_step (m : MapperState) (hm : MapInv m) (s : String) :
    MapInv (nameToId s m).2 := by
  cases h : m.nameToIdMap.lookup s with
  | some id =>
    have hid : mapInsertId id s m.idToNameMap = m.idToNameMap := by
      unfold mapInsertId
      rw [hm.consist s id h]
    simp only [nameToId, h, hid]
    exact ⟨hm.consist, hm.nameBound, hm.idBound⟩
  | none =>
    have hfresh := idToName_fresh_none m hm
    simp only [nameToId, h, mapInsertName, mapInsertId, hfresh]
    refine ⟨?_, ?_, ?_⟩
    · intro n i h3
      by_cases hns : n = s
      · subst hns
        rw [lookup_cons_self] at h3
        cases h3
        exact lookup_cons_self _ _ _
      · rw [lookup_cons_ne n s _ _ hns] at h3
        have hlt := hm.nameBound n i h3
        have hne : i ≠ m.counter := by omega
        rw [lookup_cons_ne i m.counter _ _ hne]
        exact hm.consist n i h3
    · intro n i h3
      by_cases hns : n = s
      · subst hns
        rw [lookup_cons_self] at h3
        cases h3
        show m.counter < m.counter + 1
        omega
      · rw [lookup_cons_ne n s _ _ hns] at h3
        have := hm.nameBound n i h3
        show i < m.counter + 1
        omega
    · intro i n h3
      by_cases hic : i = m.counter
      · show i < m.counter + 1
        omega
      · rw [lookup_cons_ne i m.counter _ _ hic] at h3
        have := hm.idBound i n h3
        show i < m.counter + 1
        omega

theorem mapInv_runFrom (names : List String) :
    ∀ m : MapperState, MapInv m → MapInv (mapperRunFrom m names) := by
  induction names with
  | nil => intro m hm; exact hm
  | cons n rest ih =>
    intro m hm
    exact ih (nameToId n m).2 (mapInv_step m hm n)

theorem mapInv_run (names : List String) : MapInv (mapperRun names) :=
  mapInv_runFrom names mapperInit mapInv_init

theorem nameToId_post (m : MapperState) (hm : MapInv m) (s : String) :
    idToName (nameToId s m).1 (nameToId s m).2 = some s ∧
    (nameToId s m).2.nameToIdMap.lookup s = some (nameToId s m).1 := by
  cases h : m.nameToIdMap.lookup s with
  | some id =>
    have hid : mapInsertId id s m.idToNameMap = m.idToNameMap := by
      unfold mapInsertId
      rw [hm.consist s id h]
    simp only [nameToId, h, hid]
    refine ⟨?_, ?_⟩
    · exact hm.consist s id h
    · trivial
  | none =>
    have hfresh := idToName_fresh_none m hm
    simp only [nameToId, h, mapInsertName, mapInsertId, hfresh, idToName]
    exact ⟨lookup_cons_self _ _ _, lookup_cons_self _ _ _⟩

theorem nameToId_preserves (m : MapperState) (n : String) (i : Nat)
    (h : m.nameToIdMap.lookup n = some i) (s : String) :
    (nameToId s m).2.nameToIdMap.lookup n = some i := by
  cases h2 : m.nameToIdMap.lookup s with
  | some id =>
    simp only [nameToId, h2]
    exact h
  | none =>
    have hns : n ≠ s := by
      intro he
      rw [he, h2] at h
      cases h
    simp only [nameToId, h2, mapInsertName]
    rw [lookup_cons_ne n s _ _ hns]
    exact h

theorem runFrom_preserves (more : List String) :
    ∀ (m : MapperState) (n : String) (i : Nat),
      m.nameToIdMap.lookup n = some i →
      (mapperRunFrom m more).nameToIdMap.lookup n = some i := by
  induction more with
  | nil => intro m n i h; exact h
  | cons x rest ih =>
    intro m n i h
    exact ih (nameToId x m).2 n i (nameToId_preserves m n i h x)

theorem nameToId_found (m : MapperState) (s : String) (i : Nat)
    (h : m.nameToIdMap.lookup s = some i) : (nameToId s m).1 = i := by
  simp only [nameToId, h]

/-! ## Claim C5 -/

/-- C5: over the mapper state produced by any sequence of sequential
`NameToId` calls, `IdToName(NameToId(s))` returns `s`, and every later
sequential `NameToId(s)` — after arbitrarily many further `NameToId`
calls — returns the same id. -/
theorem nameIdMapper_roundtrip_idempotent :
    (∀ (names : List String) (s : String),
      idToName (nameToId s (mapperRun names)).1
        (nameToId s (mapperRun names)).2 = some s) ∧
    (∀ (names : List String) (s : String) (more : List String),
      (nameToId s (mapperRunFrom (nameToId s (mapperRun names)).2 more)).1 =
        (nameToId s (mapperRun names)).1) := by
  constructor
  · intro names s
    exact (nameToId_post (mapperRun names) (mapInv_run names) s).1
  · intro names s more
    have hpost := (nameToId_post (mapperRun names) (mapInv_run names) s).2
    have hkeep := runFrom_preserves more (nameToId s (mapperRun names)).2 s
      (nameToId s (mapperRun names)).1 hpost
    exact nameToId_found _ s _ hkeep

/-! ## Claim C6 lemmas: counting in lists -/

theorem countP_band_split {α : Type} (es : List α) (q p : α → Bool) :
    es.countP q =
      es.countP (fun x => q x && p x) + es.countP (fun x => q x && !p x) := by
  induction es with
  | nil => rfl
  | cons a t ih =>
    simp only [List.countP_cons, ih]
    cases hq : q a <;> cases hp : p a <;> simp [hq, hp] <;> omega

theorem countP_le_countP {α : Type} (es : List α) (p q : α → Bool)
    (h : ∀ x, p x = true → q x = true) : es.countP p ≤ es.countP q := by
  induction es with
  | nil => exact Nat.le_refl 0
  | cons a t ih =>
    simp only [List.countP_cons]
    cases hp : p a
    · cases hq : q a <;> (simp; omega)
    · rw [h a hp]
      simp
      omega

theorem countP_congr_pt {α : Type} (es : List α) (p q : α → Bool)
    (h : ∀ x, p x = q x) : es.countP p = es.countP q := by
  rw [show p = q from funext h]

theorem countP_false_pt {α : Type} (es : List α) (p : α → Bool)
    (h : ∀ x, p x = false) : es.countP p = 0 := by
  induction es with
  | nil => rfl
  | cons a t ih =>
    simp only [List.countP_cons, ih, h a]
    simp

theorem countP_not_pt {α : Type} (es : List α) (p : α → Bool) :
    es.countP (fun x => !p x) = es.length - es.countP p := by
  induction es with
  | nil => rfl
  | cons a t ih =>
    have hle : t.countP p ≤ t.length := List.countP_le_length p
    simp only [List.countP_cons, List.length_cons, ih]
    cases hp : p a <;> simp <;> omega

theorem countP_le_eq_lt_add_eq {α : Type} [LinearOrder α] (es : List α)
    (v : α) :
    es.countP (fun x => decide (x ≤ v)) =
      es.countP (fun x => decide (x < v)) +
        es.countP (fun x => decide (x = v)) := by
  rw [countP_band_split es (fun x => decide (x ≤ v))
    (fun x => decide (x < v))]
  have h1 : es.countP (fun x => decide (x ≤ v) && decide (x < v)) =
      es.countP (fun x => decide (x < v)) := by
    refine countP_congr_pt es _ _ ?_
    intro x
    by_cases h : x < v <;> simp [h, le_of_lt]
  have h2 : es.countP (fun x => decide (x ≤ v) && !decide (x < v)) =
      es.countP (fun x => decide (x = v)) := by
    refine countP_congr_pt es _ _ ?_
    intro x
    rcases lt_trichotomy x v with h | h | h
    · simp [h, ne_of_lt, le_of_lt]
    · simp [h]
    · simp [not_le.mpr h, not_lt.mpr (le_of_lt h), ne_of_gt h]
  rw [h1, h2]


theorem countP_ge_eq_sub {α : Type} [LinearOrder α] (es : List α) (lv : α) :
    es.countP (fun x => decide (lv ≤ x)) =
      es.length - es.countP (fun x => decide (x < lv)) := by
  rw [← countP_not_pt es (fun x => decide (x < lv))]
  refine countP_congr_pt es _ _ ?_
  intro x
  by_cases h : x < lv
  · simp [h, not_le.mpr h]
  · simp [h, not_lt.mp h]

theorem countP_gt_eq_sub {α : Type} [LinearOrder α] (es : List α) (lv : α) :
    es.countP (fun x => decide (lv < x)) =
      es.length - es.countP (fun x => decide (x ≤ lv)) := by
  rw [← countP_not_pt es (fun x => decide (x ≤ lv))]
  refine countP_congr_pt es _ _ ?_
  intro x
  by_cases h : x ≤ lv
  · simp [h, not_lt.mpr h]
  · simp [h, not_le.mp h]

theorem vcr_lower_only {α : Type} [LinearOrder α] (es : List α) (lv : α)
    (li : Bool) :
    verticesCountRange es (some { value := some lv, inclusive := li }) none =
      some ((rangeCount es (some (lv, li)) none : Nat) : Int) := by
  have hA : es.countP (fun x => decide (x < lv)) ≤ es.length :=
    List.countP_le_length _
  have hAB : es.countP (fun x => decide (x ≤ lv)) ≤ es.length :=
    List.countP_le_length _
  have hle := countP_le_eq_lt_add_eq es lv
  cases li with
  | true =>
    simp only [verticesCountRange, rangeCount, satLower, positionAndCount,
      if_true, Bool.and_true, Option.some.injEq]
    rw [countP_ge_eq_sub es lv]
    have hnn : (0 : Int) ≤ (es.length : Int) -
        (es.countP (fun x => decide (x < lv)) : Int) - 0 := by omega
    rw [max_eq_right hnn]
    omega
  | false =>
    simp only [verticesCountRange, rangeCount, satLower, positionAndCount,
      if_true, if_false, Bool.false_eq_true, Bool.and_true, Option.some.injEq]
    rw [countP_gt_eq_sub es lv, hle]
    have hnn : (0 : Int) ≤ (es.length : Int) -
        (es.countP (fun x => decide (x < lv)) : Int) -
        (es.countP (fun x => decide (x = lv)) : Int) := by omega
    rw [max_eq_right hnn]
    omega

theorem vcr_upper_only {α : Type} [LinearOrder α] (es : List α) (uv : α)
    (ui : Bool) :
    verticesCountRange es none (some { value := some uv, inclusive := ui }) =
      some ((rangeCount es none (some (uv, ui)) : Nat) : Int) := by
  have hle := countP_le_eq_lt_add_eq es uv
  cases ui with
  | true =>
    simp only [verticesCountRange, rangeCount, satUpper, positionAndCount,
      if_true, Bool.true_and, Option.some.injEq]
    omega
  | false =>
    simp only [verticesCountRange, rangeCount, satUpper, positionAndCount,
      if_true, if_false, Bool.false_eq_true, Bool.true_and, Option.some.injEq]

theorem vcr_both_bounds {α : Type} [LinearOrder α] (es : List α) (lv uv : α)
    (li ui : Bool) :
    verticesCountRange es (some { value := some lv, inclusive := li })
        (some { value := some uv, inclusive := ui }) =
      some ((rangeCount es (some (lv, li)) (some (uv, ui)) : Nat) : Int) := by
  have hCD := countP_le_eq_lt_add_eq es uv
  have hAB := countP_le_eq_lt_add_eq es lv
  cases li with
  | true =>
    cases ui with
    | true =>
      simp only [verticesCountRange, rangeCount, satLower, satUpper,
        positionAndCount, if_true, if_false, Bool.false_eq_true,
        Option.some.injEq]
      rcases le_or_lt lv uv with h | h
      · have hsplit := countP_band_split es (fun x => decide (x ≤ uv))
          (fun x => decide (lv ≤ x))
        have h1 : es.countP (fun x => decide (x ≤ uv) && decide (lv ≤ x)) =
            es.countP (fun x => decide (lv ≤ x) && decide (x ≤ uv)) :=
          countP_congr_pt es _ _ (fun x => Bool.and_comm _ _)
        have h2 : es.countP (fun x => decide (x ≤ uv) && !decide (lv ≤ x)) =
            es.countP (fun x => decide (x < lv)) := by
          refine countP_congr_pt es _ _ ?_
          intro x
          by_cases hx : x < lv
          · have hxu : x ≤ uv := le_trans (le_of_lt hx) h
            simp [hxu, not_le.mpr hx, hx]
          · simp [hx, not_lt.mp hx]
        rw [h1, h2] at hsplit
        rw [hCD] at hsplit
        have hnn : (0 : Int) ≤
            (es.countP (fun x => decide (x < uv)) : Int) -
            (es.countP (fun x => decide (x < lv)) : Int) +
            (es.countP (fun x => decide (x = uv)) : Int) := by omega
        rw [max_eq_right hnn]
        omega
      · have hz : es.countP (fun x => decide (lv ≤ x) && decide (x ≤ uv)) =
            0 := by
          refine countP_false_pt es _ ?_
          intro x
          by_cases hx : lv ≤ x
          · have : ¬ x ≤ uv := not_le.mpr (lt_of_lt_of_le h hx)
            simp [hx, this]
          · simp [hx]
        have hmono : es.countP (fun x => decide (x ≤ uv)) ≤
            es.countP (fun x => decide (x < lv)) := by
          refine countP_le_countP es _ _ ?_
          intro x hx
          rw [decide_eq_true_eq] at hx
          rw [decide_eq_true_eq]
          exact lt_of_le_of_lt hx h
        rw [hCD] at hmono
        have hnp : (es.countP (fun x => decide (x < uv)) : Int) -
            (es.countP (fun x => decide (x < lv)) : Int) +
            (es.countP (fun x => decide (x = uv)) : Int) ≤ 0 := by omega
        rw [max_eq_left hnp, hz]
        rfl
    | false =>
      simp only [verticesCountRange, rangeCount, satLower, satUpper,
        positionAndCount, if_true, if_false, Bool.false_eq_true,
        Option.some.injEq]
      rcases le_or_lt lv uv with h | h
      · have hsplit := countP_band_split es (fun x => decide (x < uv))
          (fun x => decide (lv ≤ x))
        have h1 : es.countP (fun x => decide (x < uv) && decide (lv ≤ x)) =
            es.countP (fun x => decide (lv ≤ x) && decide (x < uv)) :=
          countP_congr_pt es _ _ (fun x => Bool.and_comm _ _)
        have h2 : es.countP (fun x => decide (x < uv) && !decide (lv ≤ x)) =
            es.countP (fun x => decide (x < lv)) := by
          refine countP_congr_pt es _ _ ?_
          intro x
          by_cases hx : x < lv
          · have hxu : x < uv := lt_of_lt_of_le hx h
            simp [hxu, not_le.mpr hx, hx]
          · simp [hx, not_lt.mp hx]
        rw [h1, h2] at hsplit
        have hnn : (0 : Int) ≤
            (es.countP (fun x => decide (x < uv)) : Int) -
            (es.countP (fun x => decide (x < lv)) : Int) := by omega
        rw [max_eq_right hnn]
        omega
      · have hz : es.countP (fun x => decide (lv ≤ x) && decide (x < uv)) =
            0 := by
          refine countP_false_pt es _ ?_
          intro x
          by_cases hx : lv ≤ x
          · have : ¬ x < uv := not_lt.mpr (le_trans (le_of_lt h) hx)
            simp [hx, this]
          · simp [hx]
        have hmono : es.countP (fun x => decide (x < uv)) ≤
            es.countP (fun x => decide (x < lv)) := by
          refine countP_le_countP es _ _ ?_
          intro x hx
          rw [decide_eq_true_eq] at hx
          rw [decide_eq_true_eq]
          exact lt_of_lt_of_le hx (le_of_lt h)
        have hnp : (es.countP (fun x => decide (x < uv)) : Int) -
            (es.countP (fun x => decide (x < lv)) : Int) ≤ 0 := by omega
        rw [max_eq_left hnp, hz]
        rfl
  | false =>
    cases ui with
    | true =>
      simp only [verticesCountRange, rangeCount, satLower, satUpper,
        positionAndCount, if_true, if_false, Bool.false_eq_true,
        Option.some.injEq]
      rcases le_or_lt lv uv with h | h
      · have hsplit := countP_band_split es (fun x => decide (x ≤ uv))
          (fun x => decide (lv < x))
        have h1 : es.countP (fun x => decide (x ≤ uv) && decide (lv < x)) =
            es.countP (fun x => decide (lv < x) && decide (x ≤ uv)) :=
          countP_congr_pt es _ _ (fun x => Bool.and_comm _ _)
        have h2 : es.countP (fun x => decide (x ≤ uv) && !decide (lv < x)) =
            es.countP (fun x => decide (x ≤ lv)) := by
          refine countP_congr_pt es _ _ ?_
          intro x
          by_cases hx : x ≤ lv
          · have hxu : x ≤ uv := le_trans hx h
            simp [hxu, not_lt.mpr hx, hx]
          · simp [hx, not_le.mp hx]
        rw [h1, h2] at hsplit
        rw [hCD, hAB] at hsplit
        have hnn : (0 : Int) ≤
            (es.countP (fun x => decide (x < uv)) : Int) -
            (es.countP (fun x => decide (x < lv)) : Int) -
            (es.countP (fun x => decide (x = lv)) : Int) +
            (es.countP (fun x => decide (x = uv)) : Int) := by omega
        rw [max_eq_right hnn]
        omega
      · have hz : es.countP (fun x => decide (lv < x) && decide (x ≤ uv)) =
            0 := by
          refine countP_false_pt es _ ?_
          intro x
          by_cases hx : lv < x
          · have : ¬ x ≤ uv := not_le.mpr (lt_of_le_of_lt (le_of_lt h) hx)
            simp [hx, this]
          · simp [hx]
        have hmono : es.countP (fun x => decide (x ≤ uv)) ≤
            es.countP (fun x => decide (x ≤ lv)) := by
          refine countP_le_countP es _ _ ?_
          intro x hx
          rw [decide_eq_true_eq] at hx
          rw [decide_eq_true_eq]
          exact le_trans hx (le_of_lt h)
        rw [hCD, hAB] at hmono
        have hnp : (es.countP (fun x => decide (x < uv)) : Int) -
            (es.countP (fun x => decide (x < lv)) : Int) -
            (es.countP (fun x => decide (x = lv)) : Int) +
            (es.countP (fun x => decide (x = uv)) : Int) ≤ 0 := by omega
        rw [max_eq_left hnp, hz]
        rfl
    | false =>
      simp only [verticesCountRange, rangeCount, satLower, satUpper,
        positionAndCount, if_true, if_false, Bool.false_eq_true,
        Option.some.injEq]
      rcases lt_or_le lv uv with h | h
      · have hsplit := countP_band_split es (fun x => decide (x < uv))
          (fun x => decide (lv < x))
        have h1 : es.countP (fun x => decide (x < uv) && decide (lv < x)) =
            es.countP (fun x => decide (lv < x) && decide (x < uv)) :=
          countP_congr_pt es _ _ (fun x => Bool.and_comm _ _)
        have h2 : es.countP (fun x => decide (x < uv) && !decide (lv < x)) =
            es.countP (fun x => decide (x ≤ lv)) := by
          refine countP_congr_pt es _ _ ?_
          intro x
          by_cases hx : x ≤ lv
          · have hxu : x < uv := lt_of_le_of_lt hx h
            simp [hxu, not_lt.mpr hx, hx]
          · simp [hx, not_le.mp hx]
        rw [h1, h2] at hsplit
        rw [hAB] at hsplit
        have hnn : (0 : Int) ≤
            (es.countP (fun x => decide (x < uv)) : Int) -
            (es.countP (fun x => decide (x < lv)) : Int) -
            (es.countP (fun x => decide (x = lv)) : Int) := by omega
        rw [max_eq_right hnn]
        omega
      · have hz : es.countP (fun x => decide (lv < x) && decide (x < uv)) =
            0 := by
          refine countP_false_pt es _ ?_
          intro x
          by_cases hx : lv < x
          · have : ¬ x < uv := not_lt.mpr (le_trans h (le_of_lt hx))
            simp [hx, this]
          · simp [hx]
        have hmono : es.countP (fun x => decide (x < uv)) ≤
            es.countP (fun x => decide (x ≤ lv)) := by
          refine countP_le_countP es _ _ ?_
          intro x hx
          rw [decide_eq_true_eq] at hx
          rw [decide_eq_true_eq]
          exact le_of_lt (lt_of_lt_of_le hx h)
        rw [hAB] at hmono
        have hnp : (es.countP (fun x => decide (x < uv)) : Int) -
            (es.countP (fun x => decide (x < lv)) : Int) -
            (es.countP (fun x => decide (x = lv)) : Int) ≤ 0 := by omega
        rw [max_eq_left hnp, hz]
        rfl

/-! ## Claim C6 -/

/-- C6: over an index container of values from any linearly ordered
domain (the non-Null property values; Null is never indexed), with
`PositionAndCount` returning the count of entries ordered before the
value and the length of the equal run, `VerticesCount` with range bounds
returns exactly the number of entries inside the range for every
combination of present/absent and inclusive/exclusive bounds, and returns
the checked-fatal result (modelled `none`) when both bounds are absent or
when either bound carries a Null value. -/
theorem verticesCount_counts_range_exactly {α : Type} [LinearOrder α] :
    (∀ es : List α, verticesCountRange es none none = none) ∧
    (∀ (es : List α) (b : Bool) (u : Option (IdxBound α)),
      verticesCountRange es (some { value := none, inclusive := b }) u =
        none) ∧
    (∀ (es : List α) (b : Bool) (l : Option (IdxBound α)),
      verticesCountRange es l (some { value := none, inclusive := b }) =
        none) ∧
    (∀ (es : List α) (lv : α) (li : Bool),
      verticesCountRange es (some { value := some lv, inclusive := li })
          none =
        some ((rangeCount es (some (lv, li)) none : Nat) : Int)) ∧
    (∀ (es : List α) (uv : α) (ui : Bool),
      verticesCountRange es none
          (some { value := some uv, inclusive := ui }) =
        some ((rangeCount es none (some (uv, ui)) : Nat) : Int)) ∧
    (∀ (es : List α) (lv uv : α) (li ui : Bool),
      verticesCountRange es (some { value := some lv, inclusive := li })
          (some { value := some uv, inclusive := ui }) =
        some ((rangeCount es (some (lv, li)) (some (uv, ui)) : Nat) : Int)) := by
  refine ⟨fun es => rfl, ?_, ?_, vcr_lower_only, vcr_upper_only,
    vcr_both_bounds⟩
  · intro es b u
    cases u with
    | none => rfl
    | some ub =>
      rcases ub with ⟨uval, uinc⟩
      cases uval with
      | none => rfl
      | some uv => rfl
  · intro es b l
    cases l with
    | none => rfl
    | some lb =>
      rcases lb with ⟨lval, linc⟩
      cases lval with
      | none => rfl
      | some lv => rfl

/-! ## Claim C8 lemmas -/

theorem recoverSnapshot_outcome (f : SnapshotFile) (rd : RecoveryData) :
    ((recoverSnapshot f rd).1 = false → (recoverSnapshot f rd).2.2 = none) ∧
    ((recoverSnapshot f rd).1 = true →
      f.openOk = true ∧ f.magicOk = true ∧ f.summaryOk = true ∧
      f.closeOk = true ∧ f.computedHash = f.storedHash ∧
      ∃ rest, readInt f.tokens = some (kVersion, rest)) := by
  by_cases h1 : f.openOk
  case neg => simp [recoverSnapshot, h1]
  by_cases h2 : f.magicOk
  case neg => simp [recoverSnapshot, h1, h2]
  by_cases h3 : f.summaryOk
  case neg => simp [recoverSnapshot, h1, h2, h3]
  rcases hri : readInt f.tokens with _ | ⟨ver, rest1⟩
  · simp [recoverSnapshot, h1, h2, h3, hri]
  by_cases hv : ver = kVersion
  case neg => simp [recoverSnapshot, h1, h2, h3, hri, hv]
  subst hv
  rcases hq2 : readInt rest1 with _ | ⟨vg, rest2⟩
  · simp [recoverSnapshot, h1, h2, h3, hri, hq2]
  rcases hq3 : readInt rest2 with _ | ⟨eg, rest3⟩
  · simp [recoverSnapshot, h1, h2, h3, hri, hq2, hq3]
  rcases hq4 : readInt rest3 with _ | ⟨stx, rest4⟩
  · simp [recoverSnapshot, h1, h2, h3, hri, hq2, hq3, hq4]
  rcases hq5 : readList rest4 with _ | ⟨snapList, rest5⟩
  · simp [recoverSnapshot, h1, h2, h3, hri, hq2, hq3, hq4, hq5]
  by_cases hok1 : (collectInts snapList).2
  case neg =>
    simp [recoverSnapshot, h1, h2, h3, hri, hq2, hq3, hq4, hq5, hok1]
  rcases hq6 : readList rest5 with _ | ⟨idxList, rest6⟩
  · simp [recoverSnapshot, h1, h2, h3, hri, hq2, hq3, hq4, hq5, hok1, hq6]
  by_cases hok2 : (collectIndexPairs idxList).2
  case neg =>
    simp [recoverSnapshot, h1, h2, h3, hri, hq2, hq3, hq4, hq5, hok1, hq6,
      hok2]
  rcases hq7 : readVertices f.vertexCount rest6 with _ | ⟨vs, rest7⟩
  · simp [recoverSnapshot, h1, h2, h3, hri, hq2, hq3, hq4, hq5, hok1, hq6,
      hok2, hq7]
  rcases hq8 : readEdges (vs.map SnapVertexRec.gid) f.edgeCount rest7 with
    _ | ⟨es, rest8⟩
  · simp [recoverSnapshot, h1, h2, h3, hri, hq2, hq3, hq4, hq5, hok1, hq6,
      hok2, hq7, hq8]
  by_cases hcl : f.closeOk
  case neg =>
    simp [recoverSnapshot, h1, h2, h3, hri, hq2, hq3, hq4, hq5, hok1, hq6,
      hok2, hq7, hq8, hcl]
  by_cases hh : f.computedHash = f.storedHash
  case neg =>
    simp [recoverSnapshot, h1, h2, h3, hri, hq2, hq3, hq4, hq5, hok1, hq6,
      hok2, hq7, hq8, hcl, hh]
  constructor
  · intro hfalse
    simp [recoverSnapshot, h1, h2, h3, hri, hq2, hq3, hq4, hq5, hok1, hq6,
      hok2, hq7, hq8, hcl, hh] at hfalse
  · intro _
    exact ⟨h1, h2, h3, hcl, hh, rest1, rfl⟩

theorem trySnapshots_fail_cons (f : SnapshotFile) (rest : List SnapshotFile)
    (rd : RecoveryData) (h : (recoverSnapshot f rd).1 = false) :
    trySnapshots (f :: rest) rd = trySnapshots rest recoveryDataClear := by
  simp only [trySnapshots]
  rcases hr : recoverSnapshot f rd with ⟨b, rd2, c⟩
  rw [hr] at h
  simp only at h
  subst h
  rfl

theorem trySnapshots_first_valid (files : List SnapshotFile) :
    trySnapshots files recoveryDataClear =
      match files.find? snapshotValidates with
      | some f => ((recoverSnapshot f recoveryDataClear).2.1,
                   (recoverSnapshot f recoveryDataClear).2.2)
      | none => (recoveryDataClear, none) := by
  induction files with
  | nil => rfl
  | cons f rest ih =>
    by_cases hv : snapshotValidates f
    · rw [List.find?_cons_of_pos _ hv]
      unfold snapshotValidates at hv
      simp only [trySnapshots]
      rcases hr : recoverSnapshot f recoveryDataClear with ⟨b, rd2, c⟩
      rw [hr] at hv
      simp only at hv
      subst hv
      rfl
    · have hvf : snapshotValidates f = false := by
        cases hb : snapshotValidates f
        · rfl
        · exact absurd hb hv
      rw [List.find?_cons_of_neg _ (by rw [hvf]; exact Bool.false_ne_true)]
      unfold snapshotValidates at hvf
      rw [trySnapshots_fail_cons f rest recoveryDataClear hvf]
      exact ih

theorem insertDescBy_perm {β : Type} (x : Nat × β) (l : List (Nat × β)) :
    (insertDescBy x l).Perm (x :: l) := by
  induction l with
  | nil => exact List.Perm.refl _
  | cons y ys ih =>
    by_cases h : x.1 ≥ y.1
    · rw [insertDescBy, if_pos h]
    · rw [insertDescBy, if_neg h]
      exact List.Perm.trans (List.Perm.cons y ih) (List.Perm.swap x y ys)

theorem sortFilesDesc_perm {β : Type} (files : List (Nat × β)) :
    (sortFilesDesc files).Perm files := by
  induction files with
  | nil => exact List.Perm.refl _
  | cons x rest ih =>
    exact List.Perm.trans (insertDescBy_perm x (sortFilesDesc rest))
      (List.Perm.cons x ih)

theorem insertDescBy_sorted {β : Type} (x : Nat × β) (l : List (Nat × β))
    (h : List.Pairwise (fun a b => b.1 ≤ a.1) l) :
    List.Pairwise (fun a b => b.1 ≤ a.1) (insertDescBy x l) := by
  induction l with
  | nil => simp [insertDescBy]
  | cons y ys ih =>
    rw [List.pairwise_cons] at h
    by_cases hc : x.1 ≥ y.1
    · rw [insertDescBy, if_pos hc]
      rw [List.pairwise_cons]
      refine ⟨?_, List.pairwise_cons.mpr h⟩
      intro z hz
      rcases List.mem_cons.mp hz with h2 | h2
      · subst h2
        exact hc
      · exact le_trans (h.1 z h2) hc
    · rw [insertDescBy, if_neg hc]
      rw [List.pairwise_cons]
      refine ⟨?_, ih h.2⟩
      intro z hz
      rcases List.mem_cons.mp ((insertDescBy_perm x ys).mem_iff.mp hz) with
        h2 | h2
      · subst h2
        omega
      · exact h.1 z h2

theorem sortFilesDesc_sorted {β : Type} (files : List (Nat × β)) :
    List.Pairwise (fun a b => b.1 ≤ a.1) (sortFilesDesc files) := by
  induction files with
  | nil => exact List.Pairwise.nil
  | cons x rest ih => exact insertDescBy_sorted x _ ih

/-! ## Claim C8 -/

/-- C8: snapshot recovery is strict.  A `RecoverSnapshot` call that
returns false commits nothing (the recovery transaction is aborted —
explicitly on hash mismatch, by the abandoned accessor otherwise); a call
that returns true passed the whole validation chain: the file opened, the
magic bytes and the summary read matched, the version value decoded and
equals `kVersion`, `Close` succeeded and the computed hash equals the
stored hash.  In `Recover`, a failing snapshot clears the partial
recovery data and falls back to the next file, so the snapshot loop
yields exactly the result of the first file (in the order tried) that
validates, or nothing when none does; and the enumeration order is
reverse chronological: `sortFilesDesc` is a permutation of the files
sorted descending by path. -/
theorem snapshot_recovery_strict :
    (∀ (f : SnapshotFile) (rd : RecoveryData),
      (recoverSnapshot f rd).1 = false →
        (recoverSnapshot f rd).2.2 = none) ∧
    (∀ (f : SnapshotFile) (rd : RecoveryData),
      (recoverSnapshot f rd).1 = true →
        f.openOk = true ∧ f.magicOk = true ∧ f.summaryOk = true ∧
        f.closeOk = true ∧ f.computedHash = f.storedHash ∧
        ∃ rest, readInt f.tokens = some (kVersion, rest)) ∧
    (∀ (f : SnapshotFile) (rest : List SnapshotFile) (rd : RecoveryData),
      (recoverSnapshot f rd).1 = false →
        trySnapshots (f :: rest) rd = trySnapshots rest recoveryDataClear) ∧
    (∀ files : List SnapshotFile,
      trySnapshots files recoveryDataClear =
        match files.find? snapshotValidates with
        | some f => ((recoverSnapshot f recoveryDataClear).2.1,
                     (recoverSnapshot f recoveryDataClear).2.2)
        | none => (recoveryDataClear, none)) ∧
    (∀ files : List (Nat × SnapshotFile),
      List.Pairwise (fun a b => b.1 ≤ a.1) (sortFilesDesc files) ∧
      (sortFilesDesc files).Perm files) :=
  ⟨fun f rd => (recoverSnapshot_outcome f rd).1,
   fun f rd => (recoverSnapshot_outcome f rd).2,
   trySnapshots_fail_cons,
   trySnapshots_first_valid,
   fun files => ⟨sortFilesDesc_sorted files, sortFilesDesc_perm files⟩⟩

/-- Witness for C8: a concrete file failing only its hash check commits
nothing and falls through to the next (older) file, which validates with
matching hash. -/
theorem snapshot_recovery_strict_witness :
    (recoverSnapshot badHashFile recoveryDataClear).2.2 = none ∧
    trySnapshots [badHashFile, goodEmptyFile] recoveryDataClear =
      trySnapshots [goodEmptyFile] recoveryDataClear ∧
    goodEmptyFile.computedHash = goodEmptyFile.storedHash :=
  ⟨snapshot_recovery_strict.1 badHashFile recoveryDataClear rfl,
   snapshot_recovery_strict.2.2.1 badHashFile [goodEmptyFile]
     recoveryDataClear rfl,
   (snapshot_recovery_strict.2.1 goodEmptyFile recoveryDataClear
     rfl).2.2.2.2.1⟩
